import Mathlib

/-!
Verification of the CCC_A1 Mastodon analytics program (MPI batch aggregation).

The development shallowly embeds the relevant Python source:
  * the line-range partitioner of `main.py` (`lines_per_core`, `line_to_start`,
    `line_to_end`);
  * the record decoder `MastodonData.__init__` of `MastodonData.py` (both the
    original variant and the revised variant under `src/`);
  * the per-line aggregation `processing_data` and `preprocess_data` of
    `util.py`;
  * the top-N merge `merge_list` of `util.py` and the selection pipeline of
    `main.py` built from `heapq.nlargest` / `heapq.nsmallest`;
  * the dictionary-merge loops of the revised `main.py` (hour map and user map
    reduction).

Python dictionaries are modelled as association lists in insertion order with
first-match lookup; Python sentiment numbers as exact integers (every claim
concerns sums and comparisons, which the examples exercise on integer
sentiments; rounding behaviour of binary floats is outside the scope of the
embedding); `json.loads` outcomes as an
explicit inductive of decoded objects (parse failure is a constructor, since
record decoding is an external collaborator of the core).  `heapq.nlargest`
and `sorted(key, reverse=True)` are modelled by a stable insertion sort, per
the documented equivalence `nlargest(n, it, key) = sorted(it, key, reverse=True)[:n]`.
-/

/-! ## Generic stable sorting and merging machinery

`pySortDesc f` models Python `sorted(iterable, key=f, reverse=True)`: a stable
sort putting larger keys first, ties kept in input order.  `pySortAsc f`
models `sorted(iterable, key=f)`.  `mergeD f` is the untruncated stable
two-list merge preferring the left list on ties (the comparison
`x[0][1] >= y[0][1]` of the source's `merge_list`). -/

section SortMerge

variable {τ γ : Type} (f : τ → γ) [LinearOrder γ]

/-- Stable descending insertion: `a` is placed before the first element whose
key is not strictly greater (so ties in the existing list win, matching the
stability of Python `sorted(..., reverse=True)` when building from the right). -/
def pyInsertDesc (a : τ) : List τ → List τ
  | [] => [a]
  | b :: l => if f a < f b then b :: pyInsertDesc a l else a :: b :: l

/-- Model of Python `sorted(l, key=f, reverse=True)` (stable, larger keys first). -/
def pySortDesc : List τ → List τ
  | [] => []
  | a :: l => pyInsertDesc f a (pySortDesc l)

/-- Stable ascending insertion. -/
def pyInsertAsc (a : τ) : List τ → List τ
  | [] => [a]
  | b :: l => if f b < f a then b :: pyInsertAsc a l else a :: b :: l

/-- Model of Python `sorted(l, key=f)` (stable, smaller keys first). -/
def pySortAsc : List τ → List τ
  | [] => []
  | a :: l => pyInsertAsc f a (pySortAsc l)

/-- Model of `heapq.nlargest(n, l, key=f)`; per the Python documentation this
equals `sorted(l, key=f, reverse=True)[:n]`. -/
def nlargest (n : ℕ) (l : List τ) : List τ :=
  (pySortDesc f l).take n

/-- Model of `heapq.nsmallest(n, l, key=f)` = `sorted(l, key=f)[:n]`. -/
def nsmallest (n : ℕ) (l : List τ) : List τ :=
  (pySortAsc f l).take n

/-- Untruncated stable merge: repeatedly emit the head with the larger key,
preferring the left list when the keys are equal (the source comparison
`x[0][1] >= y[0][1]`). -/
def mergeD : List τ → List τ → List τ
  | [], ys => ys
  | xs, [] => xs
  | a :: xs, b :: ys =>
    if f b ≤ f a then a :: mergeD xs (b :: ys) else b :: mergeD (a :: xs) ys

/-- Descending-sorted (weakly) by key `f`, ties allowed. -/
def SortedD (l : List τ) : Prop :=
  l.Pairwise (fun a b => f b ≤ f a)

instance (l : List τ) : Decidable (SortedD f l) := by
  unfold SortedD; infer_instance

end SortMerge

/-! ## `merge_list` from `util.py`

```python
def merge_list(x: list, y: list, n=5):
    merged = []
    while len(merged) < n and (x or y):
        if x and (not y or x[0][1] >= y[0][1]):
            merged.append(x.pop(0))
        elif y:
            merged.append(y.pop(0))
    return merged
```

Items are pairs whose second component is compared with Python `>=`; for the
hour lists this is a number, for the user lists it is the `(username, score)`
tuple, compared lexicographically as Python compares tuples. -/

def merge_list {α β : Type} [LinearOrder β] :
    List (α × β) → List (α × β) → ℕ → List (α × β)
  | _, _, 0 => []
  | [], [], _ + 1 => []
  | x :: xs, [], n + 1 => x :: merge_list xs [] n
  | [], y :: ys, n + 1 => y :: merge_list [] ys n
  | x :: xs, y :: ys, n + 1 =>
    if y.2 ≤ x.2 then x :: merge_list xs (y :: ys) n
    else y :: merge_list (x :: xs) ys n

/-! ## The partitioner of `main.py`

```python
lines_per_core = n_lines // comm_size
line_to_start = lines_per_core * comm_rank
line_to_end = line_to_start + lines_per_core if comm_rank < comm_size - 1 else n_lines
```
-/

def lines_per_core (n_lines comm_size : ℕ) : ℕ :=
  n_lines / comm_size

def line_to_start (n_lines comm_size comm_rank : ℕ) : ℕ :=
  lines_per_core n_lines comm_size * comm_rank

def line_to_end (n_lines comm_size comm_rank : ℕ) : ℕ :=
  if comm_rank < comm_size - 1 then
    line_to_start n_lines comm_size comm_rank + lines_per_core n_lines comm_size
  else n_lines

/-! ## Python dictionaries as insertion-ordered association lists -/

/-- First-match lookup, `d.get(k)` / `d[k]`. -/
def dlookup {β : Type} : List (String × β) → String → Option β
  | [], _ => none
  | (k', v) :: d, k => if k' = k then some v else dlookup d k

/-- `d.get(k, dflt)`. -/
def dgetD {β : Type} (d : List (String × β)) (k : String) (dflt : β) : β :=
  (dlookup d k).getD dflt

/-- `d[k] = v`: replace the value in place if the key is present (keeping its
position, as Python dicts do), otherwise append the new entry. -/
def dset {β : Type} (d : List (String × β)) (k : String) (v : β) : List (String × β) :=
  if k ∈ d.map Prod.fst then
    d.map (fun p => if p.1 = k then (k, v) else p)
  else d ++ [(k, v)]

/-- Well-formedness of a Python dict model: one entry per key. -/
def dictOK {β : Type} (d : List (String × β)) : Prop :=
  (d.map Prod.fst).Nodup

instance {β : Type} (d : List (String × β)) : Decidable (dictOK d) := by
  unfold dictOK; infer_instance

/-! ## JSON values and the record decoder `MastodonData`

`json.loads` is an external collaborator; we model the decoded object shape the
program actually reads: the `created_at` string, the `sentiment` value (absent,
null, or a number), and the `account` object with `id` and `username`.
`Option` is key absence, `JVal.null` is an explicit JSON `null`. -/

inductive JVal : Type
  | null : JVal
  | num : ℤ → JVal
  deriving DecidableEq

structure AccountObj : Type where
  id : Option String
  username : Option String
  deriving DecidableEq

structure JsonObj : Type where
  created_at : Option String
  sentiment : Option JVal
  account : Option AccountObj
  deriving DecidableEq

/-- A raw line as seen after `preprocess_data`: either not valid JSON (the
`MastodonData` constructor raises `ValueError`) or a decoded object. -/
inductive PLine : Type
  | invalid : PLine
  | obj : JsonObj → PLine
  deriving DecidableEq

/-- `MastodonData.__init__` of the original `MastodonData.py`:
`created_at = json_data.get("created_at", "")`,
`sentiment = json_data.get("sentiment", 0)` (note: an explicit JSON `null`
stays `None`), `account = json_data.get("account", {})`,
`user_id = account.get("id", "")`, `username = account.get("username", "")`. -/
structure MastodonData : Type where
  created_at : String
  sentiment : JVal
  user_id : String
  username : String
  deriving DecidableEq

def MastodonData.ofJson (j : JsonObj) : MastodonData where
  created_at := j.created_at.getD ""
  sentiment := j.sentiment.getD (JVal.num 0)
  user_id := ((j.account.getD ⟨none, none⟩).id).getD ""
  username := ((j.account.getD ⟨none, none⟩).username).getD ""

/-- `MastodonData.__init__` of the revised `src/MastodonData.py`: sentiment is
forced to a number, `None` (and a non-numeric value, via the failing
`float(...)` conversion) becoming `0`. -/
structure MastodonDataV2 : Type where
  created_at : String
  sentiment : ℤ
  user_id : String
  username : String
  deriving DecidableEq

def MastodonDataV2.ofJson (j : JsonObj) : MastodonDataV2 where
  created_at := j.created_at.getD ""
  sentiment :=
    match j.sentiment with
    | none => 0
    | some JVal.null => 0
    | some (JVal.num q) => q
  user_id := ((j.account.getD ⟨none, none⟩).id).getD ""
  username := ((j.account.getD ⟨none, none⟩).username).getD ""

/-! ## Timestamp parsing

`processing_data` runs
`datetime.datetime.fromisoformat(created_at.replace('Z', '+00:00'))` and then
`strftime("%Y-%m-%d %H")`.  We model `str.replace` exactly (the pattern is the
single character `Z`) and the external `fromisoformat`+`strftime` pipeline as
a checker of the `YYYY-MM-DD{T or space}HH...` shape that yields the
`YYYY-MM-DD HH` hour key; a string not of this shape parses to `none`. -/

def replaceZChars : List Char → List Char
  | [] => []
  | c :: r =>
    if c = 'Z' then '+' :: '0' :: '0' :: ':' :: '0' :: '0' :: replaceZChars r
    else c :: replaceZChars r

/-- `s.replace('Z', '+00:00')`. -/
def pyReplaceZ (s : String) : String :=
  ⟨replaceZChars s.data⟩

def twoDigits (c1 c2 : Char) : ℕ :=
  (c1.toNat - '0'.toNat) * 10 + (c2.toNat - '0'.toNat)

/-- Valid continuations after the hour field of an ISO-8601 timestamp:
end of string, a `:MM...` time part, or a `+HH:MM` offset. -/
def isoRestOK : List Char → Bool
  | [] => true
  | ':' :: _ => true
  | '+' :: _ => true
  | _ => false

/-- Models `fromisoformat(s).strftime("%Y-%m-%d %H")`, returning `none` when
`fromisoformat` would raise. -/
def isoHourKey (s : String) : Option String :=
  match s.data with
  | y1 :: y2 :: y3 :: y4 :: '-' :: m1 :: m2 :: '-' :: d1 :: d2 :: sep :: h1 :: h2 :: rest =>
    if (y1.isDigit && y2.isDigit && y3.isDigit && y4.isDigit &&
        m1.isDigit && m2.isDigit && d1.isDigit && d2.isDigit &&
        h1.isDigit && h2.isDigit) &&
       (sep = 'T' || sep = ' ') &&
       (1 ≤ twoDigits m1 m2 && twoDigits m1 m2 ≤ 12) &&
       (1 ≤ twoDigits d1 d2 && twoDigits d1 d2 ≤ 31) &&
       (twoDigits h1 h2 ≤ 23) &&
       isoRestOK rest then
      some ⟨[y1, y2, y3, y4, '-', m1, m2, '-', d1, d2, ' ', h1, h2]⟩
    else none
  | _ => none

/-! ## `preprocess_data` and `processing_data` from `util.py` -/

def isPyWS (c : Char) : Bool :=
  c = ' ' || c = '\t' || c = '\n' || c = '\r' || c = '\x0b' || c = '\x0c'

/-- Python `str.strip()`. -/
def pyStrip (s : String) : String :=
  ⟨((s.data.dropWhile isPyWS).reverse.dropWhile isPyWS).reverse⟩

/-- `preprocess_data` of `util.py`: `if data and data.strip(): return
data.strip()` else `None`. -/
def preprocess_data (data : String) : Option String :=
  if data ≠ "" ∧ pyStrip data ≠ "" then some (pyStrip data) else none

abbrev HourDict : Type := List (String × ℤ)

abbrev UserDict : Type := List (String × (String × ℤ))

/-- The user branch of `processing_data`:
```python
if mastodon_data.user_id and mastodon_data.sentiment is not None:
    if mastodon_data.user_id in user_sentiment_dict:
        username, score = user_sentiment_dict[mastodon_data.user_id]
        user_sentiment_dict[...] = (mastodon_data.username, score + mastodon_data.sentiment)
    else:
        user_sentiment_dict[...] = (mastodon_data.username, mastodon_data.sentiment)
```
-/
def userBranch (m : MastodonData) (hd : HourDict) (ud : UserDict) : HourDict × UserDict :=
  if m.user_id ≠ "" then
    match m.sentiment with
    | JVal.null => (hd, ud)
    | JVal.num q =>
      match dlookup ud m.user_id with
      | some (_, score) => (hd, dset ud m.user_id (m.username, score + q))
      | none => (hd, dset ud m.user_id (m.username, q))
  else (hd, ud)

/-- `processing_data` of the original `util.py` applied to the decoded line.
On a `ValueError` from the `MastodonData` constructor (invalid JSON) the
surrounding `try` leaves both dictionaries untouched.  Note that a present but
unparseable `created_at` hits `print(...); return`, skipping the user branch
entirely, while a missing (empty) `created_at` skips only the hour branch. -/
def processing_data (line : PLine) (hd : HourDict) (ud : UserDict) : HourDict × UserDict :=
  match line with
  | PLine.invalid => (hd, ud)
  | PLine.obj j =>
    let m := MastodonData.ofJson j
    if m.created_at ≠ "" then
      match m.sentiment with
      | JVal.null => userBranch m hd ud
      | JVal.num q =>
        match isoHourKey (pyReplaceZ m.created_at) with
        | none => (hd, ud)
        | some hourKey =>
          userBranch m (dset hd hourKey (dgetD hd hourKey 0 + q)) ud
    else userBranch m hd ud

/-- A raw input line together with the external decoder's verdict on its
stripped text (`json.loads` is an external collaborator). -/
structure RawLine : Type where
  text : String
  decoded : PLine

/-- The per-line body of the map loop in `main.py`:
`preprocessed_line = preprocess_data(line); if preprocessed_line:
processing_data(preprocessed_line, ...)`. -/
def mainLineStep (l : RawLine) (hd : HourDict) (ud : UserDict) : HourDict × UserDict :=
  match preprocess_data l.text with
  | none => (hd, ud)
  | some _ => processing_data l.decoded hd ud

/-- Processing a whole stream of decoded lines (used for the end-to-end
example of spec section 8). -/
def processLines (ls : List PLine) : HourDict × UserDict :=
  ls.foldl (fun st p => processing_data p st.1 st.2) ([], [])

/-! ## The dictionary merges of the reduction phase (revised `main.py`)

```python
for proc_data in all_hour_data:
    for hour, score in proc_data.items():
        reduced_hour_sentiment[hour] += score
...
for proc_data in all_user_data:
    for user_id, (username, score) in proc_data.items():
        if user_id in reduced_user_sentiment:
            _, existing_score = reduced_user_sentiment[user_id]
            reduced_user_sentiment[user_id] = (username, existing_score + score)
        else:
            reduced_user_sentiment[user_id] = (username, score)
```
(the user loop is identical in the original `main.py`, lines 61-69).
The binary merge operator combines one partial result into another. -/

def mergeHourDicts (a b : HourDict) : HourDict :=
  b.foldl (fun acc kv => dset acc kv.1 (dgetD acc kv.1 0 + kv.2)) a

def mergeUserDicts (a b : UserDict) : UserDict :=
  b.foldl
    (fun acc kv =>
      match dlookup acc kv.1 with
      | some (_, existing_score) => dset acc kv.1 (kv.2.1, existing_score + kv.2.2)
      | none => dset acc kv.1 kv.2)
    a

/-- Python `==` on dictionaries: same mapping, insertion order irrelevant. -/
def dictEq {β : Type} (a b : List (String × β)) : Prop :=
  ∀ k, dlookup a k = dlookup b k

/-! ## The two-phase top-K selection of `main.py`

Distributed mode (comm_size > 1): the root merges the per-worker
dictionaries, turns them into item lists, and splits them with
`np.array_split` for the scatter.  For the hour items — a list of uniform
`(str, int)` tuples — `np.array_split` first runs `np.asarray`, which
unifies the dtype to *strings*: every score `s` becomes `str(s)`, and all
later comparisons on the scattered rows (`heapq.nlargest(...,
key=lambda x: x[1])` and `merge_list`'s `x[0][1] >= y[0][1]`) are
lexicographic string comparisons.  Each participant takes its local
top-K / bottom-K, and the local lists are reduced with `op=merge_list`
(happiest) or `op=lambda x, y: merge_list(y, x)` (saddest); `MPI.reduce`
combines the per-rank values in rank order, `op(acc, next)`.  Centralized
mode (comm_size == 1): `nlargest` / `nsmallest` applied directly to the
items of the merged dictionary, scores still numeric.

`distHappiestHoursNp` below models the full happiest-hours path including
the string coercion; `distSaddestHours` / `distHappiestUsers` model the
distributed phase on per-participant item lists with their original values
(the inhomogeneous user items stay Python tuples inside a numpy object
array, so their scores and usernames are not stringified). -/

/-- Python `str` of an int — the decimal text that `np.asarray` stores when
it unifies the `(str, int)` hour items to a string dtype. -/
def pyIntStr (i : ℤ) : String :=
  if i < 0 then "-" ++ Nat.repr i.natAbs else Nat.repr i.natAbs

/-- `np.asarray` on the merged hour items: every score is replaced by its
decimal text, keys kept. -/
def npStringify (items : HourDict) : List (String × String) :=
  items.map (fun p => (p.1, pyIntStr p.2))

/-- Chunk sizes of `np.array_split(l, P)` for `l.length = n`: the first
`n % P` chunks have `n / P + 1` elements, the rest `n / P`. -/
def splitSizesGo (b : ℕ) : ℕ → ℕ → List ℕ
  | 0, _ => []
  | P + 1, m => (b + if 0 < m then 1 else 0) :: splitSizesGo b P (m - 1)

def splitSizes (n P : ℕ) : List ℕ :=
  splitSizesGo (n / P) P (n % P)

def takeChunks {α : Type} : List ℕ → List α → List (List α)
  | [], _ => []
  | s :: ss, l => l.take s :: takeChunks ss (l.drop s)

/-- `np.array_split(l, P)` as a list of `P` contiguous chunks. -/
def arraySplit {α : Type} (P : ℕ) (l : List α) : List (List α) :=
  takeChunks (splitSizes l.length P) l

/-- The distributed happiest-hours path of `main.py` (comm_size > 1):
`np.array_split` stringifies and splits the merged hour items, each rank
takes `heapq.nlargest(K, ..., key=lambda x: x[1])` of its scattered chunk —
comparing the *string* scores — and the local lists are reduced with
`op=merge_list`. -/
def distHappiestHoursNp (K P : ℕ) (items : HourDict) : List (String × String) :=
  match (arraySplit P (npStringify items)).map (fun w => nlargest Prod.snd K w) with
  | [] => []
  | t :: ts => ts.foldl (fun acc u => merge_list acc u K) t

def distSaddestHours (K : ℕ) (workers : List HourDict) : HourDict :=
  match workers.map (fun w => nsmallest Prod.snd K w) with
  | [] => []
  | t :: ts => ts.foldl (fun acc u => merge_list u acc K) t

def centralSaddestHours (K : ℕ) (workers : List HourDict) : HourDict :=
  nsmallest Prod.snd K workers.flatten

/-- User items carry `(user_id, (username, score))`; `merge_list` compares the
second component, which for user items is the `(username, score)` tuple under
Python's lexicographic tuple order, while the local `nlargest` keys on the
score `x[1][1]` alone. -/
def UserItem : Type := String × (String ×ₗ ℤ)

def userScore (x : UserItem) : ℤ :=
  (ofLex x.2).2

def distHappiestUsers (K : ℕ) (workers : List (List UserItem)) : List UserItem :=
  match workers.map (fun w => nlargest userScore K w) with
  | [] => []
  | t :: ts => ts.foldl (fun acc u => merge_list acc u K) t

def centralHappiestUsers (K : ℕ) (workers : List (List UserItem)) : List UserItem :=
  nlargest userScore K workers.flatten

/-! # Lemmas and theorems -/

section SortMergeLemmas

variable {τ γ : Type} (f : τ → γ) [LinearOrder γ]

theorem mergeD_nil_left (y : List τ) : mergeD f [] y = y := by
  cases y <;> simp [mergeD]

theorem mergeD_nil_right (x : List τ) : mergeD f x [] = x := by
  cases x <;> simp [mergeD]

theorem mergeD_cons_pos {a b : τ} (h : f b ≤ f a) (xs ys : List τ) :
    mergeD f (a :: xs) (b :: ys) = a :: mergeD f xs (b :: ys) := by
  simp [mergeD, h]

theorem mergeD_cons_neg {a b : τ} (h : ¬ f b ≤ f a) (xs ys : List τ) :
    mergeD f (a :: xs) (b :: ys) = b :: mergeD f (a :: xs) ys := by
  simp [mergeD, h]

theorem merge_list_eq_take {α β : Type} [LinearOrder β] :
    ∀ (n : ℕ) (x y : List (α × β)),
      merge_list x y n = (mergeD Prod.snd x y).take n := by
  intro n
  induction n with
  | zero => intro x y; cases x <;> cases y <;> simp [merge_list]
  | succ n ih =>
    intro x y
    cases x with
    | nil =>
      cases y with
      | nil => simp [merge_list, mergeD]
      | cons b ys => simp [merge_list, mergeD, ih]
    | cons a xs =>
      cases y with
      | nil => simp [merge_list, mergeD, mergeD_nil_right, ih]
      | cons b ys =>
        by_cases h : b.2 ≤ a.2
        · simp [merge_list, mergeD_cons_pos (f := Prod.snd) h, h, ih]
        · simp [merge_list, mergeD_cons_neg (f := Prod.snd) h, h, ih]

theorem take_mergeD_right :
    ∀ (x y : List τ) (n m : ℕ), n ≤ m →
      (mergeD f x (y.take m)).take n = (mergeD f x y).take n := by
  intro x
  induction x with
  | nil =>
    intro y n m h
    simp [mergeD_nil_left, List.take_take, Nat.min_eq_left h]
  | cons a xs ih =>
    intro y
    induction y with
    | nil => intro n m h; simp [mergeD_nil_right]
    | cons b ys ihy =>
      intro n m h
      cases m with
      | zero =>
        have : n = 0 := Nat.le_zero.mp h
        subst this; simp
      | succ m =>
        cases n with
        | zero => simp
        | succ n =>
          simp only [List.take_succ_cons]
          by_cases hba : f b ≤ f a
          · rw [mergeD_cons_pos f hba, mergeD_cons_pos f hba,
              List.take_succ_cons, List.take_succ_cons]
            have := ih (b :: ys) n (m + 1) (by omega)
            simpa using this
          · rw [mergeD_cons_neg f hba, mergeD_cons_neg f hba,
              List.take_succ_cons, List.take_succ_cons]
            rw [ihy n m (by omega)]

theorem take_mergeD_left :
    ∀ (x y : List τ) (n m : ℕ), n ≤ m →
      (mergeD f (x.take m) y).take n = (mergeD f x y).take n := by
  intro x
  induction x with
  | nil => intro y n m h; simp
  | cons a xs ih =>
    intro y
    induction y with
    | nil =>
      intro n m h
      simp [mergeD_nil_right, List.take_take, Nat.min_eq_left h]
    | cons b ys ihy =>
      intro n m h
      cases m with
      | zero =>
        have : n = 0 := Nat.le_zero.mp h
        subst this; simp
      | succ m =>
        cases n with
        | zero => simp
        | succ n =>
          simp only [List.take_succ_cons]
          by_cases hba : f b ≤ f a
          · rw [mergeD_cons_pos f hba, mergeD_cons_pos f hba,
              List.take_succ_cons, List.take_succ_cons]
            rw [ih (b :: ys) n m (by omega)]
          · rw [mergeD_cons_neg f hba, mergeD_cons_neg f hba,
              List.take_succ_cons, List.take_succ_cons]
            have := ihy n (m + 1) (by omega)
            simpa using this

theorem mergeD_assoc_fuel :
    ∀ (fuel : ℕ) (x y z : List τ), x.length + y.length + z.length ≤ fuel →
      mergeD f (mergeD f x y) z = mergeD f x (mergeD f y z) := by
  intro fuel
  induction fuel with
  | zero =>
    intro x y z h
    cases x with
    | nil => simp [mergeD_nil_left]
    | cons a xs => simp at h
  | succ fuel ih =>
    intro x y z h
    cases x with
    | nil => simp [mergeD_nil_left]
    | cons a xs =>
      cases y with
      | nil => simp [mergeD_nil_left, mergeD_nil_right]
      | cons b ys =>
        cases z with
        | nil => simp [mergeD_nil_right]
        | cons c zs =>
          simp only [List.length_cons] at h
          by_cases h1 : f b ≤ f a
          · by_cases h2 : f c ≤ f b
            · have h3 : f c ≤ f a := le_trans h2 h1
              rw [mergeD_cons_pos f h1, mergeD_cons_pos f h3,
                mergeD_cons_pos f h2, mergeD_cons_pos f h1,
                ih xs (b :: ys) (c :: zs) (by simp; omega),
                mergeD_cons_pos f h2]
            · by_cases h3 : f c ≤ f a
              · rw [mergeD_cons_pos f h1, mergeD_cons_pos f h3,
                  ih xs (b :: ys) (c :: zs) (by simp; omega),
                  mergeD_cons_neg f h2, mergeD_cons_pos f h3]
              · rw [mergeD_cons_pos f h1, mergeD_cons_neg f h3,
                  ← mergeD_cons_pos f h1,
                  ih (a :: xs) (b :: ys) zs (by simp; omega),
                  mergeD_cons_neg f h2, mergeD_cons_neg f h3]
          · by_cases h2 : f c ≤ f b
            · rw [mergeD_cons_neg f h1, mergeD_cons_pos f h2,
                ih (a :: xs) ys (c :: zs) (by simp; omega),
                mergeD_cons_pos f h2, mergeD_cons_neg f h1]
            · have h3 : ¬ f c ≤ f a := by
                intro hca
                exact h1 (le_trans (le_of_not_le h2) hca)
              rw [mergeD_cons_neg f h1, mergeD_cons_neg f h2,
                ← mergeD_cons_neg f h1,
                ih (a :: xs) (b :: ys) zs (by simp; omega),
                mergeD_cons_neg f h2, mergeD_cons_neg f h3]

theorem mergeD_assoc (x y z : List τ) :
    mergeD f (mergeD f x y) z = mergeD f x (mergeD f y z) :=
  mergeD_assoc_fuel f (x.length + y.length + z.length) x y z le_rfl

theorem pyInsertDesc_perm (a : τ) (l : List τ) :
    List.Perm (pyInsertDesc f a l) (a :: l) := by
  induction l with
  | nil => exact List.Perm.refl _
  | cons b bs ih =>
    by_cases h : f a < f b
    · simpa [pyInsertDesc, h] using (ih.cons b).trans (List.Perm.swap a b bs)
    · simp [pyInsertDesc, h]

theorem pySortDesc_perm (l : List τ) : List.Perm (pySortDesc f l) l := by
  induction l with
  | nil => exact List.Perm.refl _
  | cons a l ih =>
    exact (pyInsertDesc_perm f a (pySortDesc f l)).trans (ih.cons a)

theorem mem_pySortDesc {c : τ} {l : List τ} :
    c ∈ pySortDesc f l ↔ c ∈ l :=
  (pySortDesc_perm f l).mem_iff

theorem pyInsertDesc_of_forall {a : τ} {l : List τ}
    (h : ∀ c ∈ l, f c ≤ f a) :
    pyInsertDesc f a l = a :: l := by
  cases l with
  | nil => rfl
  | cons b bs =>
    have : ¬ f a < f b := not_lt.mpr (h b (List.mem_cons_self b bs))
    simp [pyInsertDesc, this]

theorem sortedD_pyInsertDesc {a : τ} {l : List τ} (h : SortedD f l) :
    SortedD f (pyInsertDesc f a l) := by
  induction l with
  | nil => simp [pyInsertDesc, SortedD]
  | cons b bs ih =>
    rw [SortedD, List.pairwise_cons] at h
    obtain ⟨hb, hbs⟩ := h
    by_cases hab : f a < f b
    · rw [pyInsertDesc, if_pos hab, SortedD, List.pairwise_cons]
      constructor
      · intro c hc
        rcases List.mem_cons.mp ((pyInsertDesc_perm f a bs).mem_iff.mp hc) with hc | hc
        · subst hc; exact le_of_lt hab
        · exact hb c hc
      · exact ih hbs
    · rw [pyInsertDesc, if_neg hab, SortedD, List.pairwise_cons]
      refine ⟨?_, ?_⟩
      · intro c hc
        rcases List.mem_cons.mp hc with hc | hc
        · subst hc; exact not_lt.mp hab
        · exact le_trans (hb c hc) (not_lt.mp hab)
      · exact List.Pairwise.cons hb hbs

theorem sortedD_pySortDesc (l : List τ) : SortedD f (pySortDesc f l) := by
  induction l with
  | nil => simp [pySortDesc, SortedD]
  | cons a l ih => exact sortedD_pyInsertDesc f ih

theorem pySortDesc_eq_self {l : List τ} (h : SortedD f l) :
    pySortDesc f l = l := by
  induction l with
  | nil => rfl
  | cons a l ih =>
    rw [SortedD, List.pairwise_cons] at h
    obtain ⟨ha, hl⟩ := h
    rw [pySortDesc, ih hl, pyInsertDesc_of_forall f ha]

theorem sortedD_take {l : List τ} (h : SortedD f l) (n : ℕ) :
    SortedD f (l.take n) :=
  List.Pairwise.sublist (List.take_sublist n l) h

theorem sortDesc_middle {b : τ} :
    ∀ (l1 l2 : List τ), (∀ c ∈ l1, f c < f b) → (∀ c ∈ l2, f c ≤ f b) →
      pySortDesc f (l1 ++ b :: l2) = b :: pySortDesc f (l1 ++ l2) := by
  intro l1
  induction l1 with
  | nil =>
    intro l2 _ h2
    rw [List.nil_append, List.nil_append, pySortDesc]
    exact pyInsertDesc_of_forall f
      (fun c hc => h2 c ((pySortDesc_perm f l2).mem_iff.mp hc))
  | cons a l1 ih =>
    intro l2 h1 h2
    have ha : f a < f b := h1 a (List.mem_cons_self a l1)
    rw [List.cons_append, pySortDesc,
      ih l2 (fun c hc => h1 c (List.mem_cons_of_mem a hc)) h2,
      pyInsertDesc, if_pos ha, List.cons_append, pySortDesc]

theorem mergeD_eq_sortDesc_fuel :
    ∀ (fuel : ℕ) (x y : List τ), x.length + y.length ≤ fuel →
      SortedD f x → SortedD f y →
      mergeD f x y = pySortDesc f (x ++ y) := by
  intro fuel
  induction fuel with
  | zero =>
    intro x y h hx hy
    cases x with
    | nil => rw [mergeD_nil_left, List.nil_append, pySortDesc_eq_self f hy]
    | cons a xs => simp at h
  | succ fuel ih =>
    intro x y h hx hy
    cases x with
    | nil => rw [mergeD_nil_left, List.nil_append, pySortDesc_eq_self f hy]
    | cons a xs =>
      cases y with
      | nil =>
        rw [mergeD_nil_right, List.append_nil, pySortDesc_eq_self f hx]
      | cons b ys =>
        simp only [List.length_cons] at h
        rw [SortedD, List.pairwise_cons] at hx hy
        obtain ⟨hxa, hxs⟩ := hx
        obtain ⟨hyb, hys⟩ := hy
        by_cases h1 : f b ≤ f a
        · rw [mergeD_cons_pos f h1,
            ih xs (b :: ys) (by simp; omega) hxs
              (by rw [SortedD, List.pairwise_cons]; exact ⟨hyb, hys⟩),
            List.cons_append, pySortDesc]
          refine (pyInsertDesc_of_forall f ?_).symm
          intro c hc
          rcases List.mem_append.mp ((pySortDesc_perm f _).mem_iff.mp hc) with hc | hc
          · exact hxa c hc
          · rcases List.mem_cons.mp hc with hc | hc
            · subst hc; exact h1
            · exact le_trans (hyb c hc) h1
        · have hab : f a < f b := not_le.mp h1
          rw [mergeD_cons_neg f h1,
            ih (a :: xs) ys (by simp; omega)
              (by rw [SortedD, List.pairwise_cons]; exact ⟨hxa, hxs⟩) hys]
          refine (sortDesc_middle f (a :: xs) ys ?_ hyb).symm
          intro c hc
          rcases List.mem_cons.mp hc with hc | hc
          · subst hc; exact hab
          · exact lt_of_le_of_lt (hxa c hc) hab

theorem mergeD_eq_sortDesc {x y : List τ} (hx : SortedD f x) (hy : SortedD f y) :
    mergeD f x y = pySortDesc f (x ++ y) :=
  mergeD_eq_sortDesc_fuel f (x.length + y.length) x y le_rfl hx hy

theorem pyInsertDesc_comm {a b : τ} (hab : f a < f b) :
    ∀ l : List τ,
      pyInsertDesc f b (pyInsertDesc f a l) = pyInsertDesc f a (pyInsertDesc f b l) := by
  intro l
  induction l with
  | nil => simp [pyInsertDesc, hab, asymm hab]
  | cons c cs ih =>
    by_cases hc1 : f b < f c
    · have hc2 : f a < f c := lt_trans hab hc1
      simp [pyInsertDesc, hc1, hc2, ih]
    · by_cases hc2 : f a < f c
      · simp [pyInsertDesc, hc1, hc2, hab]
      · simp [pyInsertDesc, hc1, hc2, hab, asymm hab]

theorem sortDesc_insert_append (a : τ) :
    ∀ (x m : List τ),
      pySortDesc f (pyInsertDesc f a x ++ m) = pyInsertDesc f a (pySortDesc f (x ++ m)) := by
  intro x
  induction x with
  | nil => intro m; rw [pyInsertDesc, List.singleton_append, pySortDesc, List.nil_append]
  | cons b bs ih =>
    intro m
    by_cases hab : f a < f b
    · rw [pyInsertDesc, if_pos hab, List.cons_append, pySortDesc, ih m,
        pyInsertDesc_comm f hab, List.cons_append, pySortDesc]
    · simp [pyInsertDesc, hab, pySortDesc]

theorem sortDesc_idem_append :
    ∀ (x m : List τ),
      pySortDesc f (pySortDesc f x ++ m) = pySortDesc f (x ++ m) := by
  intro x
  induction x with
  | nil => intro m; rfl
  | cons a xs ih =>
    intro m
    rw [pySortDesc, sortDesc_insert_append f a (pySortDesc f xs) m, ih m,
      List.cons_append, pySortDesc]

theorem sortDesc_append_idem :
    ∀ (x m : List τ),
      pySortDesc f (x ++ pySortDesc f m) = pySortDesc f (x ++ m) := by
  intro x
  induction x with
  | nil =>
    intro m
    rw [List.nil_append, List.nil_append,
      pySortDesc_eq_self f (sortedD_pySortDesc f m)]
  | cons a xs ih =>
    intro m
    rw [List.cons_append, List.cons_append, pySortDesc, pySortDesc, ih m]

end SortMergeLemmas

/-! ## Top-K pipeline lemmas -/

theorem merge_list_nlargest {α β : Type} [LinearOrder β] (K : ℕ) (C c : List (α × β)) :
    merge_list (nlargest Prod.snd K C) (nlargest Prod.snd K c) K
      = nlargest Prod.snd K (C ++ c) := by
  unfold nlargest
  rw [merge_list_eq_take,
    take_mergeD_right Prod.snd ((pySortDesc Prod.snd C).take K) (pySortDesc Prod.snd c)
      K K le_rfl,
    take_mergeD_left Prod.snd (pySortDesc Prod.snd C) (pySortDesc Prod.snd c) K K le_rfl,
    mergeD_eq_sortDesc Prod.snd (sortedD_pySortDesc Prod.snd C) (sortedD_pySortDesc Prod.snd c),
    sortDesc_append_idem, sortDesc_idem_append]

theorem foldl_merge_nlargest {α β : Type} [LinearOrder β] (K : ℕ) :
    ∀ (cs : List (List (α × β))) (C : List (α × β)),
      cs.foldl (fun acc c => merge_list acc (nlargest Prod.snd K c) K) (nlargest Prod.snd K C)
        = nlargest Prod.snd K (C ++ cs.flatten) := by
  intro cs
  induction cs with
  | nil => intro C; simp
  | cons c cs ih =>
    intro C
    rw [List.foldl_cons, merge_list_nlargest K C c, ih (C ++ c),
      List.flatten_cons, List.append_assoc]

/-- Two lists that are permutations of each other, both weakly descending by
key, with pairwise-distinct keys, are equal. -/
theorem sorted_nodup_perm_eq {τ γ : Type} (f : τ → γ) [LinearOrder γ] :
    ∀ (l1 l2 : List τ), List.Perm l1 l2 → SortedD f l1 → SortedD f l2 →
      (l1.map f).Nodup → l1 = l2 := by
  intro l1
  induction l1 with
  | nil =>
    intro l2 hp _ _ _
    exact (List.Perm.eq_nil hp.symm).symm
  | cons a t1 ih =>
    intro l2 hp hs1 hs2 hnd
    cases l2 with
    | nil => exact (List.cons_ne_nil a t1 hp.eq_nil).elim
    | cons b t2 =>
      rw [SortedD, List.pairwise_cons] at hs1 hs2
      obtain ⟨h1a, h1t⟩ := hs1
      obtain ⟨h2b, h2t⟩ := hs2
      rw [List.map_cons, List.nodup_cons] at hnd
      have hab : a = b := by
        by_contra hne
        have ha2 : a ∈ t2 := by
          rcases List.mem_cons.mp (hp.mem_iff.mp (List.mem_cons_self a t1)) with h | h
          · exact absurd h hne
          · exact h
        have hb2 : b ∈ t1 := by
          rcases List.mem_cons.mp (hp.symm.mem_iff.mp (List.mem_cons_self b t2)) with h | h
          · exact absurd h.symm hne
          · exact h
        have hfe : f a = f b := le_antisymm (h2b a ha2) (h1a b hb2)
        exact hnd.1 (hfe ▸ List.mem_map_of_mem f hb2)
      subst hab
      rw [ih t2 hp.cons_inv h1t h2t hnd.2]

theorem nlargest_of_perm_nodup {α β : Type} [LinearOrder β] (K : ℕ)
    {l1 l2 : List (α × β)} (hp : List.Perm l1 l2)
    (hnd : (l1.map Prod.snd).Nodup) :
    nlargest Prod.snd K l1 = nlargest Prod.snd K l2 := by
  unfold nlargest
  congr 1
  refine sorted_nodup_perm_eq Prod.snd _ _ ?_ ?_ ?_ ?_
  · exact (pySortDesc_perm Prod.snd l1).trans (hp.trans (pySortDesc_perm Prod.snd l2).symm)
  · exact sortedD_pySortDesc Prod.snd l1
  · exact sortedD_pySortDesc Prod.snd l2
  · exact (((pySortDesc_perm Prod.snd l1).map Prod.snd).nodup_iff).mpr hnd

/-! ## Dictionary lemmas -/

theorem dlookup_eq_none {β : Type} :
    ∀ (d : List (String × β)) (k : String), k ∉ d.map Prod.fst → dlookup d k = none := by
  intro d
  induction d with
  | nil => intro k _; rfl
  | cons e d ih =>
    obtain ⟨k1, v1⟩ := e
    intro k hk
    simp only [List.map_cons, List.mem_cons] at hk
    push_neg at hk
    rw [dlookup, if_neg (fun h => hk.1 h.symm)]
    exact ih k hk.2

theorem dlookup_mapReplace {β : Type} (k : String) (v : β) :
    ∀ d : List (String × β), k ∈ d.map Prod.fst →
      dlookup (d.map (fun p => if p.1 = k then (k, v) else p)) k = some v := by
  intro d
  induction d with
  | nil => intro h; simp at h
  | cons e d ih =>
    obtain ⟨k1, v1⟩ := e
    intro hk
    rw [List.map_cons,
      show (if (k1, v1).1 = k then (k, v) else (k1, v1))
        = (if k1 = k then (k, v) else (k1, v1)) from rfl]
    by_cases h1 : k1 = k
    · rw [if_pos h1, dlookup, if_pos rfl]
    · have hk' : k ∈ d.map Prod.fst := by
        simp only [List.map_cons, List.mem_cons] at hk
        rcases hk with h | h
        · exact absurd h.symm h1
        · exact h
      rw [if_neg h1, dlookup, if_neg h1]
      exact ih hk'

theorem dlookup_appendNew {β : Type} (k : String) (v : β) :
    ∀ d : List (String × β), k ∉ d.map Prod.fst →
      dlookup (d ++ [(k, v)]) k = some v := by
  intro d
  induction d with
  | nil => intro _; simp [dlookup]
  | cons e d ih =>
    obtain ⟨k1, v1⟩ := e
    intro hk
    simp only [List.map_cons, List.mem_cons] at hk
    push_neg at hk
    rw [List.cons_append, dlookup, if_neg (fun h => hk.1 h.symm)]
    exact ih hk.2

theorem dlookup_dset_self {β : Type} (d : List (String × β)) (k : String) (v : β) :
    dlookup (dset d k v) k = some v := by
  unfold dset
  by_cases hk : k ∈ d.map Prod.fst
  · rw [if_pos hk]; exact dlookup_mapReplace k v d hk
  · rw [if_neg hk]; exact dlookup_appendNew k v d hk

theorem dlookup_mapReplace_ne {β : Type} (k : String) (v : β) (k' : String) (hne : k' ≠ k) :
    ∀ d : List (String × β),
      dlookup (d.map (fun p => if p.1 = k then (k, v) else p)) k' = dlookup d k' := by
  intro d
  induction d with
  | nil => rfl
  | cons e d ih =>
    obtain ⟨k1, v1⟩ := e
    rw [List.map_cons,
      show (if (k1, v1).1 = k then (k, v) else (k1, v1))
        = (if k1 = k then (k, v) else (k1, v1)) from rfl]
    by_cases h1 : k1 = k
    · subst h1
      rw [if_pos rfl, dlookup, dlookup, if_neg (fun h => hne h.symm),
        if_neg (fun h => hne h.symm)]
      exact ih
    · rw [if_neg h1, dlookup, dlookup]
      by_cases h2 : k1 = k'
      · rw [if_pos h2, if_pos h2]
      · rw [if_neg h2, if_neg h2]
        exact ih

theorem dlookup_appendNew_ne {β : Type} (k : String) (v : β) (k' : String) (hne : k' ≠ k) :
    ∀ d : List (String × β), dlookup (d ++ [(k, v)]) k' = dlookup d k' := by
  intro d
  induction d with
  | nil =>
    rw [List.nil_append]
    show (if k = k' then some v else dlookup [] k') = none
    rw [if_neg (fun h => hne h.symm)]
    rfl
  | cons e d ih =>
    obtain ⟨k1, v1⟩ := e
    rw [List.cons_append, dlookup, dlookup]
    by_cases h2 : k1 = k'
    · rw [if_pos h2, if_pos h2]
    · rw [if_neg h2, if_neg h2]
      exact ih

theorem dlookup_dset_ne {β : Type} (d : List (String × β)) (k : String) (v : β)
    (k' : String) (hne : k' ≠ k) :
    dlookup (dset d k v) k' = dlookup d k' := by
  unfold dset
  by_cases hk : k ∈ d.map Prod.fst
  · rw [if_pos hk]; exact dlookup_mapReplace_ne k v k' hne d
  · rw [if_neg hk]; exact dlookup_appendNew_ne k v k' hne d

theorem dset_dictOK {β : Type} {d : List (String × β)} (h : dictOK d) (k : String) (v : β) :
    dictOK (dset d k v) := by
  unfold dset
  by_cases hk : k ∈ d.map Prod.fst
  · rw [if_pos hk]
    unfold dictOK at h ⊢
    have : (d.map (fun p => if p.1 = k then (k, v) else p)).map Prod.fst = d.map Prod.fst := by
      rw [List.map_map]
      apply List.map_congr_left
      intro p _
      by_cases hp : p.1 = k
      · simp [Function.comp, hp]
      · simp [Function.comp, hp]
    rw [this]
    exact h
  · rw [if_neg hk]
    unfold dictOK at h ⊢
    rw [List.map_append]
    simp only [List.map_cons, List.map_nil]
    exact List.Nodup.append h (List.nodup_singleton k)
      (fun a ha hb => by
        rcases List.mem_singleton.mp hb with rfl
        exact hk ha)

theorem mergeHourDicts_dictOK :
    ∀ (b a : HourDict), dictOK a → dictOK (mergeHourDicts a b) := by
  intro b
  induction b with
  | nil => intro a ha; exact ha
  | cons e b ih =>
    intro a ha
    exact ih (dset a e.1 (dgetD a e.1 0 + e.2)) (dset_dictOK ha e.1 _)

theorem mergeUserDicts_dictOK :
    ∀ (b a : UserDict), dictOK a → dictOK (mergeUserDicts a b) := by
  intro b
  induction b with
  | nil => intro a ha; exact ha
  | cons e b ih =>
    intro a ha
    show dictOK
      (mergeUserDicts
        (match dlookup a e.1 with
          | some (_, existing_score) => dset a e.1 (e.2.1, existing_score + e.2.2)
          | none => dset a e.1 e.2) b)
    cases dlookup a e.1 with
    | none => exact ih _ (dset_dictOK ha e.1 _)
    | some p => exact ih _ (dset_dictOK ha e.1 _)

theorem dlookup_mergeHourDicts :
    ∀ (b a : HourDict), dictOK b → ∀ k,
      dlookup (mergeHourDicts a b) k =
        (match dlookup a k, dlookup b k with
          | some x, some y => some (x + y)
          | some x, none => some x
          | none, some y => some y
          | none, none => none) := by
  intro b
  induction b with
  | nil =>
    intro a _ k
    show dlookup a k = _
    cases dlookup a k <;> rfl
  | cons e b ih =>
    intro a hb k
    obtain ⟨k0, v0⟩ := e
    rw [dictOK, List.map_cons, List.nodup_cons] at hb
    obtain ⟨hk0, hb'⟩ := hb
    have hstep : mergeHourDicts a ((k0, v0) :: b)
        = mergeHourDicts (dset a k0 (dgetD a k0 0 + v0)) b := rfl
    rw [hstep, ih (dset a k0 (dgetD a k0 0 + v0)) hb' k]
    by_cases hk : k = k0
    · subst hk
      rw [dlookup_dset_self, dlookup_eq_none b k hk0, dlookup, if_pos rfl]
      cases ha : dlookup a k with
      | some x => simp [dgetD, ha]
      | none => simp [dgetD, ha]
    · rw [dlookup_dset_ne a k0 _ k hk, dlookup, if_neg (fun h => hk h.symm)]

theorem dlookup_mergeUserDicts :
    ∀ (b a : UserDict), dictOK b → ∀ k,
      dlookup (mergeUserDicts a b) k =
        (match dlookup a k, dlookup b k with
          | some p, some q => some (q.1, p.2 + q.2)
          | some p, none => some p
          | none, some q => some q
          | none, none => none) := by
  intro b
  induction b with
  | nil =>
    intro a _ k
    show dlookup a k = _
    cases dlookup a k <;> rfl
  | cons e b ih =>
    intro a hb k
    obtain ⟨k0, v0⟩ := e
    rw [dictOK, List.map_cons, List.nodup_cons] at hb
    obtain ⟨hk0, hb'⟩ := hb
    have hstep : mergeUserDicts a ((k0, v0) :: b)
        = mergeUserDicts
            (match dlookup a k0 with
              | some (_, existing_score) => dset a k0 (v0.1, existing_score + v0.2)
              | none => dset a k0 v0) b := rfl
    rw [hstep]
    by_cases hk : k = k0
    · subst hk
      cases ha : dlookup a k with
      | some p =>
        obtain ⟨u, s⟩ := p
        rw [ih _ hb' k, dlookup_dset_self, dlookup_eq_none b k hk0, dlookup, if_pos rfl]
      | none =>
        rw [ih _ hb' k, dlookup_dset_self, dlookup_eq_none b k hk0, dlookup, if_pos rfl]
    · rw [ih _ hb' k]
      cases ha : dlookup a k0 with
      | some p =>
        obtain ⟨u, s⟩ := p
        rw [dlookup_dset_ne a k0 _ k hk, dlookup, if_neg (fun h => hk h.symm)]
      | none =>
        rw [dlookup_dset_ne a k0 _ k hk, dlookup, if_neg (fun h => hk h.symm)]

/-! ## Claim C2: the partition is exact -/

/-- **C2.** For every total record count `N ≥ 0`, worker count `P ≥ 1`, the
partitioner computes `base = N / P`, `start = base * r`, and
`end = start + base` except for the last rank which takes `end = N`; the
resulting half-open ranges partition `[0, N)` exactly — every index below `N`
lies in exactly one rank's range, every range stays within `[0, N]`, and the
last worker's range has `N / P + N % P` elements (it absorbs the `N mod P`
extra records). -/
theorem c2_partition_exact (N P : ℕ) (hP : 1 ≤ P) :
    (∀ i, i < N →
      ∃! r, r < P ∧ line_to_start N P r ≤ i ∧ i < line_to_end N P r) ∧
    (∀ r, r < P →
      line_to_start N P r ≤ line_to_end N P r ∧ line_to_end N P r ≤ N) ∧
    line_to_end N P (P - 1) - line_to_start N P (P - 1) = N / P + N % P := by
  have hmod : N % P < P := Nat.mod_lt _ hP
  have hdm : P * (N / P) + N % P = N := Nat.div_add_mod N P
  refine ⟨?_, ?_, ?_⟩
  · intro i hi
    by_cases hb0 : N / P = 0
    · refine ⟨P - 1, ⟨by omega, ?_, ?_⟩, ?_⟩
      · rw [line_to_start, lines_per_core, hb0, Nat.zero_mul]
        exact Nat.zero_le i
      · rw [line_to_end, if_neg (lt_irrefl _)]; exact hi
      · intro y hy
        obtain ⟨hyP, hys, hye⟩ := hy
        by_cases hyP1 : y < P - 1
        · exfalso
          rw [line_to_end, if_pos hyP1, line_to_start, lines_per_core, hb0,
            Nat.zero_mul] at hye
          omega
        · omega
    · have hbpos : 0 < N / P := Nat.pos_of_ne_zero hb0
      by_cases hcase : i < N / P * (P - 1)
      · have hr : i / (N / P) < P - 1 := by
          rw [Nat.div_lt_iff_lt_mul hbpos]
          calc i < N / P * (P - 1) := hcase
          _ = (P - 1) * (N / P) := Nat.mul_comm _ _
        have hdm2 : N / P * (i / (N / P)) + i % (N / P) = i := Nat.div_add_mod i (N / P)
        have hmod2 : i % (N / P) < N / P := Nat.mod_lt _ hbpos
        refine ⟨i / (N / P), ⟨by omega, ?_, ?_⟩, ?_⟩
        · rw [line_to_start, lines_per_core]; omega
        · rw [line_to_end, if_pos hr, line_to_start, lines_per_core]; omega
        · intro y hy
          obtain ⟨hyP, hys, hye⟩ := hy
          rw [line_to_start, lines_per_core] at hys
          by_cases hyP1 : y < P - 1
          · rw [line_to_end, if_pos hyP1, line_to_start, lines_per_core] at hye
            have : i / (N / P) = y := by
              apply Nat.div_eq_of_lt_le
              · rw [Nat.mul_comm]; exact hys
              · rw [Nat.succ_mul, Nat.mul_comm]; omega
            omega
          · exfalso
            have hy1 : y = P - 1 := by omega
            subst hy1
            omega
      · refine ⟨P - 1, ⟨by omega, ?_, ?_⟩, ?_⟩
        · rw [line_to_start, lines_per_core]; omega
        · rw [line_to_end, if_neg (lt_irrefl _)]; exact hi
        · intro y hy
          obtain ⟨hyP, hys, hye⟩ := hy
          by_cases hyP1 : y < P - 1
          · exfalso
            rw [line_to_end, if_pos hyP1, line_to_start, lines_per_core] at hye
            have h1 : N / P * (y + 1) ≤ N / P * (P - 1) :=
              Nat.mul_le_mul_left _ (by omega)
            have h2 : N / P * (y + 1) = N / P * y + N / P := by ring
            omega
          · omega
  · intro r hr
    have hPle : N / P * P ≤ N := by
      have := Nat.mul_comm (N / P) P
      omega
    constructor
    · rw [line_to_end]
      by_cases h1 : r < P - 1
      · rw [if_pos h1]; omega
      · rw [if_neg h1]
        have hy1 : r = P - 1 := by omega
        subst hy1
        rw [line_to_start, lines_per_core]
        exact le_trans (Nat.mul_le_mul_left _ (by omega : P - 1 ≤ P)) hPle
    · rw [line_to_end]
      by_cases h1 : r < P - 1
      · rw [if_pos h1, line_to_start, lines_per_core]
        have h2 : N / P * (r + 1) ≤ N / P * P := Nat.mul_le_mul_left _ (by omega)
        have h3 : N / P * (r + 1) = N / P * r + N / P := by ring
        omega
      · rw [if_neg h1]
  · rw [line_to_end, if_neg (lt_irrefl _), line_to_start, lines_per_core]
    have h2 : N / P * (P - 1) + N / P = N / P * ((P - 1) + 1) := by ring
    have h3 : P - 1 + 1 = P := by omega
    rw [h3] at h2
    have h4 : N / P * P = P * (N / P) := Nat.mul_comm _ _
    have h5 : N / P * (P - 1) + (N / P + N % P) = N := by
      rw [← Nat.add_assoc, h2, h4, hdm]
    exact Nat.sub_eq_of_eq_add (h5.symm.trans (Nat.add_comm _ _))

/-- Witness for `c2_partition_exact` at `N = 7`, `P = 3`. -/
theorem c2_partition_exact_witness :
    1 ≤ 3 ∧
    ((∀ i, i < 7 →
        ∃! r, r < 3 ∧ line_to_start 7 3 r ≤ i ∧ i < line_to_end 7 3 r) ∧
      (∀ r, r < 3 →
        line_to_start 7 3 r ≤ line_to_end 7 3 r ∧ line_to_end 7 3 r ≤ 7) ∧
      line_to_end 7 3 (3 - 1) - line_to_start 7 3 (3 - 1) = 7 / 3 + 7 % 3) :=
  ⟨by decide, c2_partition_exact 7 3 (by decide)⟩

/-! ## Claim C10: partition when `N < P` -/

/-- **C10.** When the total line count `N` is smaller than the worker count
`P` (so `base = N / P = 0`), every rank `r < P - 1` receives the empty range
`[0, 0)`, while the last rank `P - 1` receives `[0, N)` and alone processes
the entire input. -/
theorem c10_small_input_partition (N P r : ℕ) (hP : 1 ≤ P) (hNP : N < P) :
    (r < P - 1 → line_to_start N P r = 0 ∧ line_to_end N P r = 0) ∧
    line_to_start N P (P - 1) = 0 ∧ line_to_end N P (P - 1) = N := by
  have hb : N / P = 0 := Nat.div_eq_of_lt hNP
  refine ⟨fun hr => ⟨?_, ?_⟩, ?_, ?_⟩
  · rw [line_to_start, lines_per_core, hb, Nat.zero_mul]
  · rw [line_to_end, if_pos hr, line_to_start, lines_per_core, hb, Nat.zero_mul]
  · rw [line_to_start, lines_per_core, hb, Nat.zero_mul]
  · rw [line_to_end, if_neg (lt_irrefl _)]

/-- Witness for `c10_small_input_partition` at `N = 2`, `P = 5`, `r = 1`. -/
theorem c10_small_input_partition_witness :
    1 ≤ 5 ∧ 2 < 5 ∧
    ((1 < 5 - 1 → line_to_start 2 5 1 = 0 ∧ line_to_end 2 5 1 = 0) ∧
      line_to_start 2 5 (5 - 1) = 0 ∧ line_to_end 2 5 (5 - 1) = 2) :=
  ⟨by decide, by decide, c10_small_input_partition 2 5 1 (by decide) (by decide)⟩

/-! ## Claim C3: merge algebra of the reduction phase -/

/-- **C3 (amended).** The per-field merge of partial results (hour maps:
union of keys with values summed; user maps: union of keys, scores summed on
collision, the *incoming* side's username kept) is associative on both fields
and commutative on hour maps; on user maps it is commutative whenever
colliding entries carry the same username (true in practice, since a user's
rows all carry that user's username).  Equality is Python dict equality
(`dictEq`).  Unconditional commutativity on the user field is refuted by
`c3_user_merge_not_commutative`. -/
theorem c3_merge_assoc_comm (a b c : HourDict) (ua ub uc : UserDict)
    (ha : dictOK a) (hb : dictOK b) (hc : dictOK c)
    (hua : dictOK ua) (hub : dictOK ub) (huc : dictOK uc) :
    dictEq (mergeHourDicts (mergeHourDicts a b) c)
        (mergeHourDicts a (mergeHourDicts b c)) ∧
    dictEq (mergeHourDicts a b) (mergeHourDicts b a) ∧
    dictEq (mergeUserDicts (mergeUserDicts ua ub) uc)
        (mergeUserDicts ua (mergeUserDicts ub uc)) ∧
    ((∀ k p q, dlookup ua k = some p → dlookup ub k = some q → p.1 = q.1) →
      dictEq (mergeUserDicts ua ub) (mergeUserDicts ub ua)) := by
  refine ⟨?_, ?_, ?_, ?_⟩
  · intro k
    rw [dlookup_mergeHourDicts c _ hc k, dlookup_mergeHourDicts b a hb k,
      dlookup_mergeHourDicts _ a (mergeHourDicts_dictOK c b hb) k,
      dlookup_mergeHourDicts c b hc k]
    cases dlookup a k <;> cases dlookup b k <;> cases dlookup c k <;>
      simp [add_assoc]
  · intro k
    rw [dlookup_mergeHourDicts b a hb k, dlookup_mergeHourDicts a b ha k]
    cases dlookup a k <;> cases dlookup b k <;> simp [add_comm]
  · intro k
    rw [dlookup_mergeUserDicts uc _ huc k, dlookup_mergeUserDicts ub ua hub k,
      dlookup_mergeUserDicts _ ua (mergeUserDicts_dictOK uc ub hub) k,
      dlookup_mergeUserDicts uc ub huc k]
    cases dlookup ua k <;> cases dlookup ub k <;> cases dlookup uc k <;>
      simp [add_assoc]
  · intro hnames k
    rw [dlookup_mergeUserDicts ub ua hub k, dlookup_mergeUserDicts ua ub hua k]
    cases hpa : dlookup ua k with
    | none => cases hpb : dlookup ub k <;> simp
    | some p =>
      cases hpb : dlookup ub k with
      | none => simp
      | some q =>
        have hn := hnames k p q hpa hpb
        simp [hn, add_comm]

/-- Witness for `c3_merge_assoc_comm` on concrete partial results. -/
theorem c3_merge_assoc_comm_witness :
    dictOK [("h1", (1 : ℤ))] ∧ dictOK [("h1", (2 : ℤ)), ("h2", 3)] ∧
    dictOK [("h2", (4 : ℤ))] ∧
    dictOK [("u", ("alice", (1 : ℤ)))] ∧ dictOK [("u", ("alice", (2 : ℤ)))] ∧
    dictOK [("v", ("bob", (3 : ℤ)))] ∧
    (dictEq
        (mergeHourDicts (mergeHourDicts [("h1", (1 : ℤ))] [("h1", 2), ("h2", 3)])
          [("h2", 4)])
        (mergeHourDicts [("h1", (1 : ℤ))]
          (mergeHourDicts [("h1", 2), ("h2", 3)] [("h2", 4)])) ∧
      dictEq (mergeHourDicts [("h1", (1 : ℤ))] [("h1", 2), ("h2", 3)])
        (mergeHourDicts [("h1", 2), ("h2", 3)] [("h1", (1 : ℤ))]) ∧
      dictEq
        (mergeUserDicts
          (mergeUserDicts [("u", ("alice", (1 : ℤ)))] [("u", ("alice", 2))])
          [("v", ("bob", 3))])
        (mergeUserDicts [("u", ("alice", (1 : ℤ)))]
          (mergeUserDicts [("u", ("alice", 2))] [("v", ("bob", 3))])) ∧
      ((∀ k p q, dlookup [("u", ("alice", (1 : ℤ)))] k = some p →
          dlookup [("u", ("alice", (2 : ℤ)))] k = some q → p.1 = q.1) →
        dictEq (mergeUserDicts [("u", ("alice", (1 : ℤ)))] [("u", ("alice", 2))])
          (mergeUserDicts [("u", ("alice", (2 : ℤ)))] [("u", ("alice", 1))]))) :=
  ⟨by decide, by decide, by decide, by decide, by decide, by decide,
    c3_merge_assoc_comm _ _ _ _ _ _ (by decide) (by decide) (by decide)
      (by decide) (by decide) (by decide)⟩

/-- **C3 (counterexample).** The user-map merge keeps the incoming side's
username, so when the two sides carry different usernames for the same
`user_id` the merge is not commutative: merging `(u -> (alice, 1))` with
`(u -> (bob, 2))` gives `(u -> (bob, 3))` one way and `(u -> (alice, 3))` the
other, refuting `merge(a,b) == merge(b,a)` "on every field" as stated. -/
theorem c3_user_merge_not_commutative :
    ¬ dictEq (mergeUserDicts [("u", ("alice", (1 : ℤ)))] [("u", ("bob", 2))])
        (mergeUserDicts [("u", ("bob", (2 : ℤ)))] [("u", ("alice", 1))]) :=
  fun h => absurd (h "u") (by decide)

/-! ## Claim C4: unparseable timestamp and the user path -/

/-- **C4.** The claim (and spec sections 3, 4.3, 7, 8) requires that a record
with a non-empty `user_id` and a missing *or unparseable* timestamp is still
folded into the user accumulator.  The code satisfies this only for a
*missing* (empty) `created_at` (second conjunct); for a present but
unparseable `created_at` the hour branch executes `print(...); return`,
which also skips the user branch: the record contributes nothing (first
conjunct), contradicting the claim — a slip in the code relative to its
specified intent. -/
theorem c4_unparseable_timestamp_skips_user :
    processing_data
        (PLine.obj
          (JsonObj.mk (some "not-a-timestamp") (some (JVal.num 3))
            (some (AccountObj.mk (some "u1") (some "alice")))))
        [] [] = ([], []) ∧
    processing_data
        (PLine.obj
          (JsonObj.mk none (some (JVal.num 3))
            (some (AccountObj.mk (some "u1") (some "alice")))))
        [] [] = ([], [("u1", ("alice", 3))]) := by
  constructor
  · decide
  · decide

/-! ## Claim C5: blank and malformed lines -/

/-- **C5.** A blank/whitespace-only line is rejected by `preprocess_data`
(which returns the falsy `None`, so the per-line step never calls
`processing_data`), and a non-blank line that is not valid JSON raises
`ValueError` inside `MastodonData.__init__`, caught by the `try` in
`processing_data` before any mutation: in both cases the per-line step is
total (no exception escapes the Aggregator boundary, which is why the
embedding is a total function) and both accumulator maps are left exactly as
they were. -/
theorem c5_malformed_line_no_effect (l : RawLine) (hd : HourDict) (ud : UserDict)
    (h : pyStrip l.text = "" ∨ l.decoded = PLine.invalid) :
    mainLineStep l hd ud = (hd, ud) ∧
    (pyStrip l.text = "" → preprocess_data l.text = none) := by
  constructor
  · rcases h with h | h
    · rw [mainLineStep, preprocess_data, if_neg (fun hc => hc.2 h)]
    · rw [mainLineStep]
      cases hpre : preprocess_data l.text with
      | none => rfl
      | some s =>
        show processing_data l.decoded hd ud = (hd, ud)
        rw [h]
        rfl
  · intro hblank
    rw [preprocess_data, if_neg (fun hc => hc.2 hblank)]

/-- Witness for `c5_malformed_line_no_effect`: a non-blank line whose text is
not valid JSON, against non-empty accumulators. -/
theorem c5_malformed_line_no_effect_witness :
    (pyStrip (RawLine.mk "oops" PLine.invalid).text = "" ∨
      (RawLine.mk "oops" PLine.invalid).decoded = PLine.invalid) ∧
    (mainLineStep (RawLine.mk "oops" PLine.invalid) [("h", 1)] [("u", ("x", 2))]
        = ([("h", 1)], [("u", ("x", 2))]) ∧
      (pyStrip (RawLine.mk "oops" PLine.invalid).text = "" →
        preprocess_data (RawLine.mk "oops" PLine.invalid).text = none)) :=
  ⟨Or.inr rfl,
    c5_malformed_line_no_effect (RawLine.mk "oops" PLine.invalid)
      [("h", 1)] [("u", ("x", 2))] (Or.inr rfl)⟩

/-! ## Claim C6: sentiment defaulting -/

/-- **C6 (counterexample).** In the original decoder
(`json_data.get("sentiment", 0)`), a record whose `sentiment` key is an
explicit JSON `null` does *not* resolve to a number: the field stays `None`,
and downstream both the hour branch and the user branch test
`sentiment is not None` and drop the record entirely — it *is* treated as
missing, refuting the claim for this decoder. -/
theorem c6_null_sentiment_counterexample :
    (MastodonData.ofJson
        (JsonObj.mk (some "2023-03-15T14:05:00Z") (some JVal.null)
          (some (AccountObj.mk (some "u1") (some "alice"))))).sentiment
      = JVal.null ∧
    JVal.null ≠ JVal.num 0 ∧
    processing_data
        (PLine.obj
          (JsonObj.mk (some "2023-03-15T14:05:00Z") (some JVal.null)
            (some (AccountObj.mk (some "u1") (some "alice")))))
        [] [] = ([], []) := by
  refine ⟨rfl, by decide, by decide⟩

/-- **C6 (amended).** A *missing* sentiment key resolves to the number `0` in
the original decoder; in the revised decoder (`src/MastodonData.py`) the
sentiment always resolves to a number, with missing and `null` (and, in the
real code, non-numeric values via the failing `float(...)` conversion)
resolving to `0` and a numeric value kept as is. -/
theorem c6_sentiment_resolution (j : JsonObj) :
    (MastodonData.ofJson { j with sentiment := none }).sentiment = JVal.num 0 ∧
    (MastodonDataV2.ofJson j).sentiment =
      (match j.sentiment with
        | some (JVal.num q) => q
        | _ => 0) := by
  constructor
  · rfl
  · cases hj : j.sentiment with
    | none => simp [MastodonDataV2.ofJson, hj]
    | some v => cases v <;> simp [MastodonDataV2.ofJson, hj]

/-! ## Claim C7: the end-to-end example of spec section 8 -/

/-- **C7 (amended).** Processing the three example lines yields
`hour["2023-03-15 14"] = 1`, `hour["2023-03-15 09"] = 5`, user `u1` totalling
`(alice, 1)` and user `u2` totalling `(bob, 5)` — but the per-user
accumulator carries only `(username, sentiment_sum)`; no `post_count` field
exists anywhere in the code (see `c7_post_count_not_tracked`). -/
theorem c7_example_totals :
    processLines
        [PLine.obj (JsonObj.mk (some "2023-03-15T14:05:00Z") (some (JVal.num 2))
            (some (AccountObj.mk (some "u1") (some "alice")))),
          PLine.obj (JsonObj.mk (some "2023-03-15T14:45:00Z") (some (JVal.num (-1)))
            (some (AccountObj.mk (some "u1") (some "alice")))),
          PLine.obj (JsonObj.mk (some "2023-03-15T09:00:00Z") (some (JVal.num 5))
            (some (AccountObj.mk (some "u2") (some "bob"))))]
      = ([("2023-03-15 14", 1), ("2023-03-15 09", 5)],
          [("u1", ("alice", 1)), ("u2", ("bob", 5))]) := by
  decide

/-- **C7 (counterexample).** The claimed `post_count` is not tracked: the
stream in which `alice` posts twice (sentiments `2` and `-1`) and the stream
in which she posts once (sentiment `1`) drive the accumulators into the
*same* state, although the claim requires user `u1` to end with
`post_count = 2` in the first case and `1` in the second — no
`(username, sentiment_sum, post_count)` accumulator exists in the code. -/
theorem c7_post_count_not_tracked :
    [PLine.obj (JsonObj.mk (some "2023-03-15T14:05:00Z") (some (JVal.num 2))
        (some (AccountObj.mk (some "u1") (some "alice")))),
      PLine.obj (JsonObj.mk (some "2023-03-15T14:45:00Z") (some (JVal.num (-1)))
        (some (AccountObj.mk (some "u1") (some "alice"))))]
      ≠ [PLine.obj (JsonObj.mk (some "2023-03-15T14:05:00Z") (some (JVal.num 1))
          (some (AccountObj.mk (some "u1") (some "alice"))))] ∧
    processLines
        [PLine.obj (JsonObj.mk (some "2023-03-15T14:05:00Z") (some (JVal.num 2))
            (some (AccountObj.mk (some "u1") (some "alice")))),
          PLine.obj (JsonObj.mk (some "2023-03-15T14:45:00Z") (some (JVal.num (-1)))
            (some (AccountObj.mk (some "u1") (some "alice"))))]
      = processLines
          [PLine.obj (JsonObj.mk (some "2023-03-15T14:05:00Z") (some (JVal.num 1))
            (some (AccountObj.mk (some "u1") (some "alice"))))] := by
  constructor
  · decide
  · decide

/-! ## Claim C8: the binary top-K merge operator -/

/-- **C8 (amended).** Applied to two *descending*-sorted (top-K direction)
lists, `merge_list` returns exactly the top-K of the multiset union — the
first `K` elements of the stable descending sort of the concatenation, which
is what `heapq.nlargest` computes on the union — and the truncated merge is
associative (unconditionally), so reducing local top-K lists pairwise up a
tree of any shape is sound for the happiest direction.  The claimed analogous
property for the bottom-K (saddest) direction is false: the code reuses the
same larger-head-first `merge_list` on ascending bottom-K lists (see
`c8_bottom_direction_counterexample`). -/
theorem c8_topk_merge_correct_and_assoc {α β : Type} [LinearOrder β] (K : ℕ)
    (x y z : List (α × β)) (hx : SortedD Prod.snd x) (hy : SortedD Prod.snd y) :
    merge_list x y K = nlargest Prod.snd K (x ++ y) ∧
    merge_list (merge_list x y K) z K = merge_list x (merge_list y z K) K := by
  constructor
  · rw [merge_list_eq_take, mergeD_eq_sortDesc Prod.snd hx hy]
    rfl
  · simp only [merge_list_eq_take]
    rw [take_mergeD_left Prod.snd (mergeD Prod.snd x y) z K K le_rfl,
      take_mergeD_right Prod.snd x (mergeD Prod.snd y z) K K le_rfl,
      mergeD_assoc]

/-- Witness for `c8_topk_merge_correct_and_assoc` on concrete sorted top-2
lists. -/
theorem c8_topk_merge_witness :
    SortedD Prod.snd [("a", (5 : ℤ)), ("b", 3)] ∧
    SortedD Prod.snd [("c", (4 : ℤ)), ("d", 1)] ∧
    (merge_list [("a", (5 : ℤ)), ("b", 3)] [("c", 4), ("d", 1)] 2
        = nlargest Prod.snd 2 ([("a", (5 : ℤ)), ("b", 3)] ++ [("c", 4), ("d", 1)]) ∧
      merge_list (merge_list [("a", (5 : ℤ)), ("b", 3)] [("c", 4), ("d", 1)] 2)
          [("e", (9 : ℤ))] 2
        = merge_list [("a", (5 : ℤ)), ("b", 3)]
            (merge_list [("c", (4 : ℤ)), ("d", 1)] [("e", 9)] 2) 2) :=
  ⟨by decide, by decide,
    c8_topk_merge_correct_and_assoc 2 [("a", (5 : ℤ)), ("b", 3)] [("c", 4), ("d", 1)]
      [("e", (9 : ℤ))] (by decide) (by decide)⟩

/-- **C8 (counterexample).** The saddest reduction merges two
ascending-sorted bottom-2 lists (as produced by `heapq.nsmallest`, in the
argument orientation of the code's `lambda x, y: merge_list(y, x)`) with the
same larger-head-first operator; the result is not the bottom-2 of the union,
not even as a set: it keeps `c, d` instead of `a, c`. -/
theorem c8_bottom_direction_counterexample :
    merge_list (nsmallest Prod.snd 2 [("c", (1 : ℤ)), ("d", 2)])
        (nsmallest Prod.snd 2 [("a", (0 : ℤ)), ("b", 9)]) 2
      ≠ nsmallest Prod.snd 2 ([("a", (0 : ℤ)), ("b", 9)] ++ [("c", 1), ("d", 2)]) ∧
    ((merge_list (nsmallest Prod.snd 2 [("c", (1 : ℤ)), ("d", 2)])
        (nsmallest Prod.snd 2 [("a", (0 : ℤ)), ("b", 9)]) 2).map Prod.fst).toFinset
      ≠ ((nsmallest Prod.snd 2
          ([("a", (0 : ℤ)), ("b", 9)] ++ [("c", 1), ("d", 2)])).map Prod.fst).toFinset := by
  constructor
  · decide
  · decide

/-! ## Claim C9: tie-breaking in centralized selection -/

/-- **C9 (counterexample).** Centralized selection
(`heapq.nlargest(K, items, key=score)`) breaks ties by container insertion
order, not by a fixed secondary key: the same key-score multiset inserted in
two different orders yields two different top-1 lists, refuting the claimed
insertion-order independence. -/
theorem c9_tie_insertion_order_counterexample :
    List.Perm [("b", (1 : ℤ)), ("a", 1)] [("a", (1 : ℤ)), ("b", 1)] ∧
    nlargest Prod.snd 1 [("b", (1 : ℤ)), ("a", 1)]
      ≠ nlargest Prod.snd 1 [("a", (1 : ℤ)), ("b", 1)] := by
  constructor
  · exact List.Perm.swap ("a", (1 : ℤ)) ("b", 1) []
  · decide

/-- **C9 (amended).** `heapq.nlargest` is the truncation of the *stable*
descending sort, so ties are broken by insertion order (the behaviour the
spec flags as implementation-defined), not by key string; consequently the
selected ranked lists are insertion-order independent exactly when the
scores are pairwise distinct: for any two permutations of the same items
with no duplicate score, the selected lists coincide. -/
theorem c9_distinct_scores_insertion_order_irrelevant (K : ℕ)
    (l1 l2 : HourDict) (hp : List.Perm l1 l2)
    (hnd : (l1.map Prod.snd).Nodup) :
    nlargest Prod.snd K l1 = nlargest Prod.snd K l2 :=
  nlargest_of_perm_nodup K hp hnd

/-- Witness for `c9_distinct_scores_insertion_order_irrelevant`. -/
theorem c9_distinct_scores_witness :
    List.Perm [("a", (2 : ℤ)), ("b", 1)] [("b", (1 : ℤ)), ("a", 2)] ∧
    ([("a", (2 : ℤ)), ("b", 1)].map Prod.snd).Nodup ∧
    nlargest Prod.snd 1 [("a", (2 : ℤ)), ("b", 1)]
      = nlargest Prod.snd 1 [("b", (1 : ℤ)), ("a", 2)] :=
  ⟨List.Perm.swap ("b", (1 : ℤ)) ("a", 2) [], by decide,
    c9_distinct_scores_insertion_order_irrelevant 1 _ _
      (List.Perm.swap ("b", (1 : ℤ)) ("a", 2) []) (by decide)⟩

/-! ## Claim C1: distributed two-phase selection vs centralized selection -/

theorem takeChunks_length {α : Type} :
    ∀ (ss : List ℕ) (l : List α), (takeChunks ss l).length = ss.length := by
  intro ss
  induction ss with
  | nil => intro l; rfl
  | cons s ss ih => intro l; simp [takeChunks, ih]

theorem splitSizesGo_len (b : ℕ) :
    ∀ (P m : ℕ), (splitSizesGo b P m).length = P := by
  intro P
  induction P with
  | zero => intro m; rfl
  | succ P ih => intro m; simp [splitSizesGo, ih]

theorem takeChunks_flatten {α : Type} :
    ∀ (ss : List ℕ) (l : List α), (takeChunks ss l).flatten = l.take ss.sum := by
  intro ss
  induction ss with
  | nil => intro l; simp [takeChunks]
  | cons s ss ih =>
    intro l
    rw [takeChunks, List.flatten_cons, ih (l.drop s), List.sum_cons, List.take_add]

theorem splitSizesGo_sum (b : ℕ) :
    ∀ (P m : ℕ), m ≤ P → (splitSizesGo b P m).sum = P * b + m := by
  intro P
  induction P with
  | zero =>
    intro m hm
    have : m = 0 := Nat.le_zero.mp hm
    subst this
    simp [splitSizesGo]
  | succ P ih =>
    intro m hm
    rw [splitSizesGo, List.sum_cons, ih (m - 1) (by omega)]
    have hmul : (P + 1) * b = P * b + b := by ring
    by_cases h0 : 0 < m
    · rw [if_pos h0]; omega
    · rw [if_neg h0]; omega

theorem arraySplit_length {α : Type} (P : ℕ) (l : List α) :
    (arraySplit P l).length = P := by
  rw [arraySplit, takeChunks_length, splitSizes, splitSizesGo_len]

theorem arraySplit_flatten {α : Type} (P : ℕ) (hP : 1 ≤ P) (l : List α) :
    (arraySplit P l).flatten = l := by
  rw [arraySplit, takeChunks_flatten, splitSizes,
    splitSizesGo_sum _ _ _ (le_of_lt (Nat.mod_lt _ hP)),
    Nat.div_add_mod, List.take_length]

theorem toFinset_of_perm {α : Type} [DecidableEq α] {l1 l2 : List α}
    (h : List.Perm l1 l2) : l1.toFinset = l2.toFinset := by
  ext a
  simp [List.mem_toFinset, h.mem_iff]

theorem npStringify_map_fst (items : HourDict) :
    (npStringify items).map Prod.fst = items.map Prod.fst := by
  rw [npStringify, List.map_map]
  rfl

/-- The pairwise `merge_list` reduction of the per-rank `nlargest` lists over
the scattered (stringified) hour items equals one global `nlargest` over
those items — the reduction half of the distributed pipeline is exact for
whatever comparison it is given. -/
theorem distHappiestHoursNp_eq (K P : ℕ) (items : HourDict) (hP : 1 ≤ P) :
    distHappiestHoursNp K P items = nlargest Prod.snd K (npStringify items) := by
  cases hch : arraySplit P (npStringify items) with
  | nil =>
    exfalso
    have hlen := arraySplit_length P (npStringify items)
    rw [hch] at hlen
    simp at hlen
    omega
  | cons w ws =>
    rw [distHappiestHoursNp, hch]
    show (ws.map (fun v => nlargest Prod.snd K v)).foldl
        (fun acc u => merge_list acc u K) (nlargest Prod.snd K w) = _
    rw [List.foldl_map, foldl_merge_nlargest K ws w]
    have hfl : w ++ ws.flatten = npStringify items := by
      have h := arraySplit_flatten P hP (npStringify items)
      rw [hch, List.flatten_cons] at h
      exact h
    rw [hfl]

/-- **C1 (amended).** The distributed two-phase happiest-hours selection of
`main.py` — including the `np.array_split` conversion that stringifies the
scores — computes exactly the top-K of the stringified items under the
lexicographic string comparison it actually uses, for every `K` and every
`P ≥ 1` (first conjunct).  Because that comparison differs from the
centralized numeric one, the distributed result agrees with the centralized
result set only degenerately: when `K` is at least the number of items both
return the full key set (second conjunct), while already for the scores
`10` and `9` the string comparison `"10" < "9"` selects the wrong hour
(third conjunct).  Together with
`c1_distributed_vs_centralized_counterexample` (saddest and user
directions), no direction of the original equivalence claim survives beyond
this qualified same-comparison form. -/
theorem c1_happiest_hours_stringified_topk (K P : ℕ) (items : HourDict)
    (hP : 1 ≤ P) :
    distHappiestHoursNp K P items = nlargest Prod.snd K (npStringify items) ∧
    (items.length ≤ K →
      ((distHappiestHoursNp K P items).map Prod.fst).toFinset
        = ((nlargest Prod.snd K items).map Prod.fst).toFinset) ∧
    ((distHappiestHoursNp 1 2 [("a", 10), ("b", 9)]).map Prod.fst).toFinset
      ≠ ((nlargest Prod.snd 1 [("a", (10 : ℤ)), ("b", 9)]).map Prod.fst).toFinset := by
  refine ⟨distHappiestHoursNp_eq K P items hP, ?_, ?_⟩
  · intro hK
    rw [distHappiestHoursNp_eq K P items hP]
    have hlen1 : (pySortDesc Prod.snd (npStringify items)).length ≤ K := by
      rw [(pySortDesc_perm Prod.snd (npStringify items)).length_eq, npStringify,
        List.length_map]
      exact hK
    have hlen2 : (pySortDesc Prod.snd items).length ≤ K := by
      rw [(pySortDesc_perm Prod.snd items).length_eq]
      exact hK
    rw [nlargest, nlargest, List.take_of_length_le hlen1,
      List.take_of_length_le hlen2]
    have p1 : List.Perm ((pySortDesc Prod.snd (npStringify items)).map Prod.fst)
        (items.map Prod.fst) := by
      have h := (pySortDesc_perm Prod.snd (npStringify items)).map Prod.fst
      rw [npStringify_map_fst] at h
      exact h
    have p2 : List.Perm ((pySortDesc Prod.snd items).map Prod.fst)
        (items.map Prod.fst) :=
      (pySortDesc_perm Prod.snd items).map Prod.fst
    rw [toFinset_of_perm p1, toFinset_of_perm p2]
  · have h910 : ("10" : String) < "9" := by
      rw [String.lt_iff_toList_lt]
      decide
    have hd : distHappiestHoursNp 1 2 [("a", 10), ("b", 9)] = [("b", "9")] := by
      rw [distHappiestHoursNp_eq 1 2 [("a", 10), ("b", 9)] (by decide)]
      have hstr : npStringify [("a", (10 : ℤ)), ("b", 9)]
          = [("a", "10"), ("b", "9")] := by decide
      rw [hstr]
      show (pySortDesc Prod.snd [("a", "10"), ("b", "9")]).take 1 = _
      simp only [pySortDesc, pyInsertDesc]
      rw [if_pos h910]
      rfl
    rw [hd]
    decide

/-- Witness for `c1_happiest_hours_stringified_topk` at `K = 3`, `P = 2`,
three hour items. -/
theorem c1_happiest_hours_stringified_topk_witness :
    1 ≤ 2 ∧
    (distHappiestHoursNp 3 2 [("a", (10 : ℤ)), ("b", 9), ("c", 5)]
        = nlargest Prod.snd 3 (npStringify [("a", (10 : ℤ)), ("b", 9), ("c", 5)]) ∧
      ([("a", (10 : ℤ)), ("b", 9), ("c", 5)].length ≤ 3 →
        ((distHappiestHoursNp 3 2
            [("a", (10 : ℤ)), ("b", 9), ("c", 5)]).map Prod.fst).toFinset
          = ((nlargest Prod.snd 3
              [("a", (10 : ℤ)), ("b", 9), ("c", 5)]).map Prod.fst).toFinset) ∧
      ((distHappiestHoursNp 1 2 [("a", 10), ("b", 9)]).map Prod.fst).toFinset
        ≠ ((nlargest Prod.snd 1
            [("a", (10 : ℤ)), ("b", 9)]).map Prod.fst).toFinset) :=
  ⟨by decide,
    c1_happiest_hours_stringified_topk 3 2 [("a", (10 : ℤ)), ("b", 9), ("c", 5)]
      (by decide)⟩

/-- **C1 (counterexample).** The distributed two-phase selection does *not*
return the centralized result set in general.  Saddest hours: the reduction
`lambda x, y: merge_list(y, x)` applies the larger-head-first merge to the
ascending local bottom-2 lists and yields the key set `{c, d}` instead of
the true bottom-2 `{a, c}`.  Happiest users: `merge_list` compares `x[0][1]`,
which for user items is the whole `(username, score)` tuple under Python's
lexicographic tuple order, so the user `zed` with score `1` beats `ann` with
score `100` and the distributed top-1 set is `{u1}` instead of the
centralized `{u2}`. -/
theorem c1_distributed_vs_centralized_counterexample :
    ((distSaddestHours 2 [[("a", (0 : ℤ)), ("b", 9)], [("c", 1), ("d", 2)]]).map
        Prod.fst).toFinset
      ≠ ((centralSaddestHours 2 [[("a", (0 : ℤ)), ("b", 9)], [("c", 1), ("d", 2)]]).map
        Prod.fst).toFinset ∧
    ((distHappiestUsers 1
        [[("u1", toLex (("zed" : String), (1 : ℤ)))],
          [("u2", toLex (("ann" : String), (100 : ℤ)))]]).map Prod.fst).toFinset
      ≠ ((centralHappiestUsers 1
        [[("u1", toLex (("zed" : String), (1 : ℤ)))],
          [("u2", toLex (("ann" : String), (100 : ℤ)))]]).map Prod.fst).toFinset := by
  constructor
  · decide
  · have hcomp : toLex (("ann" : String), (100 : ℤ)) ≤ toLex (("zed" : String), (1 : ℤ)) := by
      rw [Prod.Lex.le_iff]
      left
      rw [String.lt_iff_toList_lt]
      decide
    have hdist : distHappiestUsers 1
        [[("u1", toLex (("zed" : String), (1 : ℤ)))],
          [("u2", toLex (("ann" : String), (100 : ℤ)))]]
        = [("u1", toLex (("zed" : String), (1 : ℤ)))] := by
      show merge_list [("u1", toLex (("zed" : String), (1 : ℤ)))]
          [("u2", toLex (("ann" : String), (100 : ℤ)))] 1 = _
      rw [merge_list, if_pos hcomp]
      rfl
    have hcentral : centralHappiestUsers 1
        [[("u1", toLex (("zed" : String), (1 : ℤ)))],
          [("u2", toLex (("ann" : String), (100 : ℤ)))]]
        = [("u2", toLex (("ann" : String), (100 : ℤ)))] := by
      show (pySortDesc userScore
          [("u1", toLex (("zed" : String), (1 : ℤ))),
            ("u2", toLex (("ann" : String), (100 : ℤ)))]).take 1 = _
      simp [pySortDesc, pyInsertDesc, userScore]
    rw [hdist, hcentral]
    decide
